import Mathlib

/-!
Verification development for the retro photon-expectation code.

The embedding models the two performance-critical components over exact
rationals (`ℚ`):

* `retro/hypo_fast.py` — the trajectory model (`Track`), the three axis
  correlators, the `inner_loop` sparse 4D accumulation, and the bin search
  `get_bin` with the cascade deposit.
* `retro/tables/pexp_5d.py` — the table-lookup likelihood evaluator
  `pexp_5d` (for the discretized-Cherenkov table kind, the only per-hit
  path that is live in the source), with its bin-index arithmetic,
  causality skips and error conditions.

Modelling conventions:

* Python/NumPy double arithmetic is modelled by exact rational arithmetic.
  A float literal such as `1e-7` is modelled by the rational `1/10^7`;
  the float constants `PI_BY_TWO` and `TWO_PI` (imported by the source
  from the `retro` package, which is not part of the sources) are modelled
  by the exact values of the IEEE-754 doubles nearest π/2 and 2π.
* Transcendental library functions (`math.sqrt`, `math.acos`, `**(1/p)`,
  `math.log`'s finite values, and the closed-form `rho_of_*` track
  inversions which are built from `sqrt`/`tan`) are abstracted as function
  parameters; every theorem below holds for all values of these
  parameters, or constrains them by exactly the analytic facts used.
* IEEE special values that the control flow of `pexp_5d` inspects
  (NaN hit times, ±∞ and NaN produced by C-semantics `log` under numba)
  are modelled explicitly by the type `XQ`.
* An `assert` failure or a `raise` is modelled by `Option`/`Except`.
-/

/-- Python `int(x)` applied to a float: truncation toward zero. -/
def pytrunc (q : ℚ) : ℤ :=
  if q < 0 then -(⌊-q⌋) else ⌊q⌋

/-- Modelled from the spec: the constant propagation speed of light used by
`Track` (imported from the `retro` package, which is not under the sources);
the spec fixes it as "constant speed = the propagation speed of light in the
medium".  Its value is irrelevant to every theorem below. -/
def SPEED_OF_LIGHT_M_PER_NS : ℚ := 299792458 / 10 ^ 9

/-- Modelled from the spec: the float constant π/2 imported by
`hypo_fast.py` from the `retro` package; modelled by the exact value of the
IEEE-754 double nearest π/2. -/
def PI_BY_TWO : ℚ := 884279719003555 / 562949953421312

/-- Modelled from the spec: the float constant 2π imported by
`hypo_fast.py` from the `retro` package; modelled by the exact value of the
IEEE-754 double nearest 2π. -/
def TWO_PI : ℚ := 884279719003555 / 140737488355328

/-- The track state of `hypo_fast.Track` after `set_origin`: the
origin-relative start `(t0, x0, y0, z0)`, the duration `dt`, and the
pre-calculated trigonometric quantities of the direction angles
(`Track.__init__`, lines 99-136). -/
structure Track where
  t0 : ℚ
  x0 : ℚ
  y0 : ℚ
  z0 : ℚ
  dt : ℚ
  sinphi : ℚ
  cosphi : ℚ
  sintheta : ℚ
  costheta : ℚ
deriving DecidableEq

/-- Model of `Track.point` (hypo_fast.py lines 138-147): position on the track at
time `t`; the `assert (t0 <= t) and (t <= t0 + dt)` failure is modelled by
`none`. -/
def Track.point (tr : Track) (t : ℚ) : Option (ℚ × ℚ × ℚ) :=
  if tr.t0 ≤ t ∧ t ≤ tr.t0 + tr.dt then
    let dt := t - tr.t0
    let dr := SPEED_OF_LIGHT_M_PER_NS * dt
    some (tr.x0 + dr * tr.sintheta * tr.cosphi,
          tr.y0 + dr * tr.sintheta * tr.sinphi,
          tr.z0 + dr * tr.costheta)
  else
    none

/-- Model of `Track.extent` (hypo_fast.py lines 149-156): overlap of the track's
active interval `[t0, t0+dt]` with the window `[t_low, t_high]`, or `none`
("no overlap"). -/
def Track.extent (tr : Track) (t_low t_high : ℚ) : Option (ℚ × ℚ) :=
  if tr.t0 + tr.dt ≥ t_low ∧ t_high ≥ tr.t0 then
    some (max t_low tr.t0, min t_high (tr.t0 + tr.dt))
  else
    none

/-- Model of `Hypo.get_bin` (hypo_fast.py lines 610-618): linear scan over bin
edges, returning the first `k` with `bin_edges[k] <= val < bin_edges[k+1]`,
and `None` if the value lies outside the binning. -/
def get_bin (val : ℚ) : List ℚ → Option ℕ
  | e0 :: e1 :: rest =>
    if e0 ≤ val ∧ val < e1 then some 0
    else (get_bin val (e1 :: rest)).map (· + 1)
  | _ => none

/-- A 4D cell index `(t-bin, r-bin, theta-bin, phi-bin)`. -/
abbrev Idx4 : Type := ℕ × ℕ × ℕ × ℕ

/-- The cascade deposit at the end of `Hypo.compute_matrices`
(hypo_fast.py lines 592-603): when all four bin lookups succeeded, blend the
correlation length by the photon-count-weighted average with the cascade's
fixed 0.5 and add the cascade photons; otherwise both sparse matrices are
left untouched. -/
def add_cascade (counts corr_len : Idx4 → ℚ)
    (t_bin r_bin theta_bin phi_bin : Option ℕ) (cascade_photons : ℚ) :
    (Idx4 → ℚ) × (Idx4 → ℚ) :=
  match t_bin, r_bin, theta_bin, phi_bin with
  | some tb, some rb, some hb, some pb =>
    let idx : Idx4 := (tb, rb, hb, pb)
    let new_len : ℚ :=
      (corr_len idx * counts idx + (1/2) * cascade_photons)
        / (counts idx + cascade_photons)
    (fun j => if j = idx then counts j + cascade_photons else counts j,
     fun j => if j = idx then new_len else corr_len j)
  | _, _, _, _ => (counts, corr_len)

/-! ## `inner_loop` (hypo_fast.py lines 29-85)

The sparse matrix `z` is modelled as a total map `Idx4 → ℚ` with default 0
(the `Sparse` accumulator has `default=0`).  The nested loops are modelled
by one recursive pass per loop nesting level, threading the explicit bin
index exactly as the Python `range` loops do. -/

/-- In-place `z[idx] += amt`. -/
def bump (z : Idx4 → ℚ) (idx : Idx4) (amt : ℚ) : Idx4 → ℚ :=
  fun j => if j = idx then z j + amt else z j

/-- Lower end of the triple intersection: `A = max(r[0], theta[0], phi[0])`
(hypo_fast.py lines 46, 56, 70, 80). -/
def triple_lo (r theta phi : ℚ × ℚ) : ℚ := max r.1 (max theta.1 phi.1)

/-- Upper end of the triple intersection: `B = min(r[1], theta[1], phi[1])`
(hypo_fast.py lines 47, 57, 71, 81). -/
def triple_hi (r theta phi : ℚ × ℚ) : ℚ := min r.2 (min theta.2 phi.2)

/-- One `for j in range(r_inter.shape[0])` loop of `inner_loop`: skip the
sentinel pairs with both entries negative, otherwise deposit
`(B - A) * photons_per_meter` into `z[k, j, m, i]` whenever `A <= B`. -/
def r_pass (ppm : ℚ) (k m i : ℕ) (theta phi : ℚ × ℚ) :
    ℕ → List (ℚ × ℚ) → (Idx4 → ℚ) → (Idx4 → ℚ)
  | _, [], z => z
  | j, rint :: rest, z =>
    let z2 :=
      if rint.1 < 0 ∧ rint.2 < 0 then z
      else
        let A := triple_lo rint theta phi
        let B := triple_hi rint theta phi
        if A ≤ B then bump z (k, j, m, i) ((B - A) * ppm) else z
    r_pass ppm k m i theta phi (j + 1) rest z2

/-- One `for m in range(theta_inter.shape[0])` loop of `inner_loop`: for
each non-sentinel theta interval, run the `r_inter_neg` pass and then the
`r_inter_pos` pass. -/
def theta_pass (ppm : ℚ) (k i : ℕ) (phi : ℚ × ℚ) (r_neg r_pos : List (ℚ × ℚ)) :
    ℕ → List (ℚ × ℚ) → (Idx4 → ℚ) → (Idx4 → ℚ)
  | _, [], z => z
  | m, th :: rest, z =>
    let z2 :=
      if th.1 < 0 ∧ th.2 < 0 then z
      else r_pass ppm k m i th phi 0 r_pos (r_pass ppm k m i th phi 0 r_neg z)
    theta_pass ppm k i phi r_neg r_pos (m + 1) rest z2

/-- The `for i in range(phi_inter.shape[0])` loop of `inner_loop`: for each
non-sentinel phi interval, run the `theta_inter_neg` pass and then the
`theta_inter_pos` pass. -/
def phi_pass (ppm : ℚ) (k : ℕ) (theta_neg theta_pos r_neg r_pos : List (ℚ × ℚ)) :
    ℕ → List (ℚ × ℚ) → (Idx4 → ℚ) → (Idx4 → ℚ)
  | _, [], z => z
  | i, ph :: rest, z =>
    let z2 :=
      if ph.1 < 0 ∧ ph.2 < 0 then z
      else theta_pass ppm k i ph r_neg r_pos 0 theta_pos
             (theta_pass ppm k i ph r_neg r_pos 0 theta_neg z)
    phi_pass ppm k theta_neg theta_pos r_neg r_pos (i + 1) rest z2

/-- Model of `inner_loop` (hypo_fast.py lines 29-85). -/
def inner_loop (z : Idx4 → ℚ) (k : ℕ)
    (phi_inter theta_inter_neg theta_inter_pos r_inter_neg r_inter_pos :
      List (ℚ × ℚ))
    (photons_per_meter : ℚ) : Idx4 → ℚ :=
  phi_pass photons_per_meter k theta_inter_neg theta_inter_pos
    r_inter_neg r_inter_pos 0 phi_inter z

/-! ## Axis correlators (hypo_fast.py lines 352-455)

The closed-form inversions `rho_of_phi`, `rho_of_theta_{pos,neg}` and
`rho_of_r_{pos,neg}` of `Track` are built from `sqrt`/`tan`/`sin`/`cos`
(hypo_fast.py lines 189-271); they are abstracted here as a bundle of
rational functions, so every theorem about the correlators holds for all
values of these inversions. -/

/-- The five closed-form track inversions used by the correlators. -/
structure RhoFuns where
  rho_of_phi : ℚ → ℚ
  rho_of_theta_neg : ℚ → ℚ
  rho_of_theta_pos : ℚ → ℚ
  rho_of_r_neg : ℚ → ℚ
  rho_of_r_pos : ℚ → ℚ

/-- Python `sorted([a, b])` on a two-element list, as a pair. -/
def pair_sorted (a b : ℚ) : ℚ × ℚ :=
  if a ≤ b then (a, b) else (b, a)

/-- Model of `Hypo.correlate_theta` (hypo_fast.py lines 352-390). -/
def correlate_theta (tk : RhoFuns) (bin_edges : List ℚ)
    (t : Option (ℚ × ℚ)) (rho_extent : ℚ × ℚ) : List (ℚ × ℚ) :=
  (List.range (bin_edges.length - 1)).map (fun i =>
    match t with
    | none => (-1, -1)
    | some tt =>
      let b0 := bin_edges.getD i 0
      let b1 := bin_edges.getD (i + 1) 0
      if |tt.1 - tt.2| < 1 / 10 ^ 7 ∧ b0 ≤ tt.1 ∧ tt.1 ≤ b1 then
        rho_extent
      else if b0 ≤ tt.2 ∧ tt.1 ≤ b1 ∧ tt.1 < tt.2 then
        let val_high := min b1 tt.2
        let val_low := max b0 tt.1
        if b0 < PI_BY_TWO then
          pair_sorted (tk.rho_of_theta_pos val_low) (tk.rho_of_theta_pos val_high)
        else
          pair_sorted (tk.rho_of_theta_neg val_low) (tk.rho_of_theta_neg val_high)
      else if b0 ≤ tt.1 ∧ tt.2 ≤ b1 ∧ tt.2 < tt.1 then
        let val_high := min b1 tt.1
        let val_low := max b0 tt.2
        if b0 < PI_BY_TWO then
          pair_sorted (tk.rho_of_theta_neg val_low) (tk.rho_of_theta_neg val_high)
        else
          pair_sorted (tk.rho_of_theta_pos val_low) (tk.rho_of_theta_pos val_high)
      else (-1, -1))

/-- Model of `Hypo.correlate_phi` (hypo_fast.py lines 392-431). -/
def correlate_phi (tk : RhoFuns) (bin_edges : List ℚ)
    (t : ℚ × ℚ) (rho_extent : ℚ × ℚ) : List (ℚ × ℚ) :=
  (List.range (bin_edges.length - 1)).map (fun i =>
    let b0 := bin_edges.getD i 0
    let b1 := bin_edges.getD (i + 1) 0
    if |t.1 - t.2| < 1 / 10 ^ 14 ∧ b0 ≤ t.1 ∧ t.1 < b1 then
      rho_extent
    else if t.1 ≤ t.2 ∧ b0 ≤ t.2 ∧ t.1 < b1 then
      let phi_high := min b1 t.2
      let phi_low := max b0 t.1
      pair_sorted (tk.rho_of_phi phi_low) (tk.rho_of_phi phi_high)
    else if t.2 < t.1 then
      -- crossing the 0/2pi point
      if b1 ≥ 0 ∧ t.2 ≥ b0 then
        pair_sorted (tk.rho_of_phi (max b0 0)) (tk.rho_of_phi (min b1 t.2))
      else if TWO_PI > b0 ∧ b1 ≥ t.1 then
        pair_sorted (tk.rho_of_phi (max b0 t.1)) (tk.rho_of_phi (min b1 TWO_PI))
      else if b0 ≤ t.2 ∧ t.1 ≤ t.2 then
        pair_sorted (tk.rho_of_phi (max b0 t.1)) (tk.rho_of_phi (min b1 t.2))
      else (-1, -1)
    else (-1, -1))

/-- Model of `Hypo.correlate_r` (hypo_fast.py lines 433-455). -/
def correlate_r (tk : RhoFuns) (bin_edges : List ℚ)
    (t : ℚ × ℚ) (pos : Bool) : List (ℚ × ℚ) :=
  (List.range (bin_edges.length - 1)).map (fun i =>
    let b0 := bin_edges.getD i 0
    let b1 := bin_edges.getD (i + 1) 0
    if b0 ≤ t.2 ∧ t.1 ≤ b1 then
      let val_high := min b1 t.2
      let val_low := max b0 t.1
      if (val_high ≤ val_low ∧ ¬pos) ∨ (val_low ≤ val_high ∧ pos) then
        pair_sorted (tk.rho_of_r_neg val_low) (tk.rho_of_r_neg val_high)
      else
        pair_sorted (tk.rho_of_r_pos val_low) (tk.rho_of_r_pos val_high)
    else (-1, -1))

/-! ## `pexp_5d` (retro/tables/pexp_5d.py)

The model covers the discretized-Cherenkov table kind
(`tbl_is_ckv`, uncompressed): in the source the per-hit raw-table cone
path is entirely commented out, so `table_lookup`/`table_lookup_mean` is
the only live per-hit lookup.  Tables are total maps on `ℤ` indices, so an
out-of-range computed index is simply applied to the map. -/

/-- An IEEE double as inspected by the control flow of `pexp_5d`: NaN,
±infinity, or a finite value (modelled exactly by a rational). -/
inductive XQ where
  | nan : XQ
  | pinf : XQ
  | ninf : XQ
  | fin : ℚ → XQ
deriving DecidableEq

/-- IEEE addition on `XQ` (only the cases produced by `log` and finite
accumulation are relevant): NaN propagates, `+∞ + -∞ = NaN`. -/
def XQ.add : XQ → XQ → XQ
  | XQ.nan, _ => XQ.nan
  | _, XQ.nan => XQ.nan
  | XQ.pinf, XQ.ninf => XQ.nan
  | XQ.ninf, XQ.pinf => XQ.nan
  | XQ.pinf, _ => XQ.pinf
  | _, XQ.pinf => XQ.pinf
  | XQ.ninf, _ => XQ.ninf
  | _, XQ.ninf => XQ.ninf
  | XQ.fin a, XQ.fin b => XQ.fin (a + b)

/-- IEEE multiplication of a finite double `m` with an `XQ` value
(`hit_mult * log(...)`); `0 * ±∞ = NaN`. -/
def XQ.smul (m : ℚ) : XQ → XQ
  | XQ.nan => XQ.nan
  | XQ.pinf => if 0 < m then XQ.pinf else if m = 0 then XQ.nan else XQ.ninf
  | XQ.ninf => if 0 < m then XQ.ninf else if m = 0 then XQ.nan else XQ.pinf
  | XQ.fin a => XQ.fin (m * a)

/-- Test `np.isinf` on an `XQ` value. -/
def XQ.isInf : XQ → Bool
  | XQ.pinf => true
  | XQ.ninf => true
  | _ => false

/-- Test `np.isfinite` on an `XQ` value. -/
def XQ.isFinite : XQ → Bool
  | XQ.fin _ => true
  | _ => false

/-- Model of `math.log` under numba (C `log` semantics): `log x` is finite for
`x > 0` (its finite values are abstracted by the oracle `logv`), `-∞` at 0
and NaN for negative arguments. -/
def mlog (logv : ℚ → ℚ) (x : ℚ) : XQ :=
  if 0 < x then XQ.fin (logv x) else if x = 0 then XQ.ninf else XQ.nan

/-- The IEEE comparison `source_t <= hit_time` for a finite `source_t`
(false whenever `hit_time` is NaN, which is how `pexp_5d` encodes "no
hit"). -/
def xle (s : ℚ) : XQ → Prop
  | XQ.nan => False
  | XQ.pinf => True
  | XQ.ninf => False
  | XQ.fin h => s ≤ h

instance (s : ℚ) (x : XQ) : Decidable (xle s x) := by
  cases x <;> simp only [xle] <;> infer_instance

/-- Modelled from the spec: the discrete source-kind tag `SRC_OMNI`
("isotropic") from `retro.hypo.discrete_hypo` (not under the sources). -/
def SRC_OMNI : ℕ := 0

/-- Modelled from the spec: the discrete source-kind tag `SRC_CKV_BETA1`
("Cherenkov-cone") from `retro.hypo.discrete_hypo` (not under the
sources). -/
def SRC_CKV_BETA1 : ℕ := 1

/-- One photon-source record (the fields of `SRC_DTYPE` read by the ckv
path of `pexp_5d`). -/
structure SrcRec where
  x : ℚ
  y : ℚ
  z : ℚ
  t : ℚ
  photons : ℚ
  kind : ℕ
  dir_costheta : ℚ
  dir_cosphi : ℚ
  dir_sinphi : ℚ
deriving DecidableEq

/-- The DOM descriptor fields read by `pexp_5d`. -/
structure DomInfo where
  operational : Bool
  x : ℚ
  y : ℚ
  z : ℚ
  quantum_efficiency : ℚ
  noise_rate_per_ns : ℚ
deriving DecidableEq

/-- The exceptions `pexp_5d` can raise. -/
inductive PexpErr where
  | xyz : PexpErr                -- `ValueError('xyz')`, zero ckv t-indep survival
  | tiNormNonpos : PexpErr       -- `ValueError('time indep norm is not > 0!')`
  | notImplemented : PexpErr     -- `NotImplementedError` on an unknown source kind
  | sumLogInf : PexpErr          -- `ValueError('sum_log_at_hit_times is inf!')`
deriving DecidableEq

/-- The closure context captured by the generated `pexp_5d`: the binning
constants precomputed by `generate_pexp_5d_function` (pexp_5d.py lines
122-160), the flag `compute_t_indep_exp`, the tables, and oracles for the
transcendental library functions (`math.sqrt`, `x ** (1/r_power)`,
`math.acos`, and the finite values of `math.log`). -/
structure PexpCtx where
  compute_t_indep : Bool
  rsquared_max : ℚ
  r_max : ℚ
  n_r_bins : ℕ
  n_costheta_bins : ℕ
  table_dr_pwr : ℚ
  table_dcostheta : ℚ
  t_max : ℚ
  table_dt : ℚ
  table_dcosthetadir : ℚ
  table_dphidir : ℚ
  n_costhetadir_bins : ℕ
  n_deltaphidir_bins : ℕ
  last_costhetadir_bin_idx : ℤ
  last_deltaphidir_bin_idx : ℤ
  sqrtQ : ℚ → ℚ
  rpowInv : ℚ → ℚ
  acosQ : ℚ → ℚ
  logv : ℚ → ℚ
  table : ℤ → ℤ → ℤ → ℤ → ℤ → ℚ
  t_indep_table : ℤ → ℤ → ℤ → ℤ → ℚ
  table_norm : ℤ → ℤ → ℚ
  t_indep_table_norm : ℤ → ℚ

/-- The constant `MACHINE_EPS = 1e-16` (pexp_5d.py line 51). -/
def MACHINE_EPS : ℚ := 1 / 10 ^ 16

/-- The quantity `rsquared = dx*dx + dy*dy + dz*dz` for one source (pexp_5d.py lines
343-348). -/
def src_rsquared (dom : DomInfo) (src : SrcRec) : ℚ :=
  let dx := dom.x - src.x
  let dy := dom.y - src.y
  let dz := dom.z - src.z
  dx * dx + dy * dy + dz * dz

/-- The index `r_bin_idx = int(r**inv_r_power / table_dr_pwr)` (pexp_5d.py line
355), with `r = math.sqrt(rsquared)`. -/
def src_r_bin_idx (ctx : PexpCtx) (dom : DomInfo) (src : SrcRec) : ℤ :=
  pytrunc (ctx.rpowInv (ctx.sqrtQ (src_rsquared dom src)) / ctx.table_dr_pwr)

/-- The index `costheta_bin_idx = int((1 - dz/r) / table_dcostheta)` (pexp_5d.py
line 356). -/
def src_costheta_bin_idx (ctx : PexpCtx) (dom : DomInfo) (src : SrcRec) : ℤ :=
  let dz := dom.z - src.z
  let r := ctx.sqrtQ (src_rsquared dom src)
  pytrunc ((1 - dz / r) / ctx.table_dcostheta)

/-- Photon-direction polar bin index with the upper edge made inclusive
(pexp_5d.py lines 445-449). -/
def costhetadir_bin_idx_of (pdir_costheta table_dcosthetadir : ℚ)
    (last_idx : ℤ) : ℤ :=
  let idx := pytrunc ((pdir_costheta + 1) / table_dcosthetadir)
  if idx > last_idx then last_idx else idx

/-- Photon-direction azimuth bin index with the upper edge made inclusive
(pexp_5d.py lines 452-456). -/
def deltaphidir_bin_idx_of (pdir_deltaphi table_dphidir : ℚ)
    (last_idx : ℤ) : ℤ :=
  let idx := pytrunc (pdir_deltaphi / table_dphidir)
  if idx > last_idx then last_idx else idx

/-- Mean (`np.mean`) over the two directional axes of a table slice
(`table_lookup_mean`, pexp_5d.py lines 281-286). -/
def tbl_mean (f : ℤ → ℤ → ℚ) (ncd npd : ℕ) : ℚ :=
  (∑ cd in Finset.range ncd, ∑ pd in Finset.range npd, f (cd : ℤ) (pd : ℤ))
    / ((ncd : ℚ) * (npd : ℚ))

/-- The body of the per-hit loop of `pexp_5d` for one source and one hit
(pexp_5d.py lines 482-553): the contribution this source adds to
`exp_p_at_hit_times[hit_t_idx]`.  `norm_at t = table_norm[r_bin_idx, t]`
and `surv_at t` is the survival-probability lookup of this source's kind
at time-bin `t`. -/
def src_hit_delta (t_max table_dt source_t source_photons : ℚ)
    (norm_at surv_at : ℤ → ℚ) (hit_time : XQ) : ℚ :=
  match hit_time with
  | XQ.nan => 0                       -- `not source_t <= NaN` is true: skipped
  | XQ.ninf => 0                      -- `source_t <= -inf` is false: skipped
  | XQ.pinf => 0                      -- `dt = inf >= t_max`: skipped
  | XQ.fin h =>
    if ¬ source_t ≤ h then 0
    else if t_max ≤ h - source_t then 0
    else
      let t_bin_idx := pytrunc ((h - source_t) / table_dt)
      source_photons * norm_at t_bin_idx * surv_at t_bin_idx

/-- Apply one source's per-hit contributions to the accumulator
`exp_p_at_hit_times` (indexed view of the `for hit_t_idx in
range(num_hits)` loop). -/
def update_acc (delta : XQ → ℚ) (hits : List (XQ × ℚ)) (acc : ℕ → ℚ) :
    ℕ → ℚ :=
  fun n =>
    if n < hits.length then acc n + delta (hits.getD n (XQ.nan, 0)).1
    else acc n

/-- The source-kind branch of `pexp_5d` (pexp_5d.py lines 358-469,
ckv-table case): returns the time-independent survival probability and the
per-time-bin survival lookup for the per-hit loop, or raises. -/
def source_surv (ctx : PexpCtx) (dom : DomInfo) (src : SrcRec) :
    Except PexpErr (ℚ × (ℤ → ℚ)) :=
  let dx := dom.x - src.x
  let dy := dom.y - src.y
  let r_bin_idx := src_r_bin_idx ctx dom src
  let costheta_bin_idx := src_costheta_bin_idx ctx dom src
  if src.kind = SRC_OMNI ∧ ctx.compute_t_indep then
    Except.ok
      (tbl_mean (fun cd pd => ctx.t_indep_table r_bin_idx costheta_bin_idx cd pd)
         ctx.n_costhetadir_bins ctx.n_deltaphidir_bins,
       fun tb =>
         tbl_mean (fun cd pd => ctx.table r_bin_idx costheta_bin_idx tb cd pd)
           ctx.n_costhetadir_bins ctx.n_deltaphidir_bins)
  else if src.kind = SRC_CKV_BETA1 then
    let rhosquared := dx * dx + dy * dy
    let rho := ctx.sqrtQ rhosquared
    let pdir_cosdeltaphi :=
      if rho ≤ MACHINE_EPS then (1 : ℚ)
      else min 1 (max (-1) (src.dir_cosphi * dx / rho + src.dir_sinphi * dy / rho))
    let cd_idx := costhetadir_bin_idx_of src.dir_costheta
      ctx.table_dcosthetadir ctx.last_costhetadir_bin_idx
    let pdir_deltaphi := |ctx.acosQ pdir_cosdeltaphi|
    let pd_idx := deltaphidir_bin_idx_of pdir_deltaphi
      ctx.table_dphidir ctx.last_deltaphidir_bin_idx
    let tis := ctx.t_indep_table r_bin_idx costheta_bin_idx cd_idx pd_idx
    if tis = 0 then Except.error PexpErr.xyz
    else
      Except.ok (tis, fun tb => ctx.table r_bin_idx costheta_bin_idx tb cd_idx pd_idx)
  else Except.error PexpErr.notImplemented

/-- Processing of one source inside the `for source in sources` loop of
`pexp_5d` (pexp_5d.py lines 342-553): radial rejection, the source-kind
branch, the time-independent accumulation with its normalization check, and
the per-hit accumulation.  The state is
`(exp_p_at_all_times, exp_p_at_hit_times)`. -/
def process_source (ctx : PexpCtx) (dom : DomInfo) (hits : List (XQ × ℚ))
    (st : ℚ × (ℕ → ℚ)) (src : SrcRec) : Except PexpErr (ℚ × (ℕ → ℚ)) :=
  if ctx.rsquared_max ≤ src_rsquared dom src then Except.ok st
  else
    match source_surv ctx dom src with
    | Except.error e => Except.error e
    | Except.ok (t_indep_surv, surv_at) =>
      let r_bin_idx := src_r_bin_idx ctx dom src
      let delta := src_hit_delta ctx.t_max ctx.table_dt src.t src.photons
        (fun tb => ctx.table_norm r_bin_idx tb) surv_at
      if ctx.compute_t_indep then
        if ¬ 0 < ctx.t_indep_table_norm r_bin_idx then
          Except.error PexpErr.tiNormNonpos
        else
          Except.ok
            (st.1 + src.photons * ctx.t_indep_table_norm r_bin_idx * t_indep_surv,
             update_acc delta hits st.2)
      else Except.ok (st.1, update_acc delta hits st.2)

/-- The `for source in sources` loop. -/
def run_sources (ctx : PexpCtx) (dom : DomInfo) (hits : List (XQ × ℚ)) :
    ℚ × (ℕ → ℚ) → List SrcRec → Except PexpErr (ℚ × (ℕ → ℚ))
  | st, [] => Except.ok st
  | st, src :: rest =>
    match process_source ctx dom hits st src with
    | Except.error e => Except.error e
    | Except.ok st2 => run_sources ctx dom hits st2 rest

/-- The final aggregation loop of `pexp_5d` (pexp_5d.py lines 558-566):
`sum += hit_mult * log(quantum_efficiency * exp_p_at_hit + noise_rate)`,
in IEEE arithmetic. -/
def sum_log_at_hit_times (logv : ℚ → ℚ) (qe noise : ℚ) (acc : ℕ → ℚ)
    (hits : List (XQ × ℚ)) : XQ :=
  (List.range hits.length).foldl
    (fun s i =>
      XQ.add s (XQ.smul (hits.getD i (XQ.nan, 0)).2
        (mlog logv (qe * acc i + noise))))
    (XQ.fin 0)

/-- Model of `pexp_5d` (pexp_5d.py lines 314-583), for the discretized-Cherenkov
table kind.  `hits` is the list of `(hit_time, hit_multiplicity)` columns;
a raised exception is an `Except.error`.  Returns
`(exp_p_at_all_times, sum_log_at_hit_times)`. -/
def pexp_5d (ctx : PexpCtx) (sources : List SrcRec) (hits : List (XQ × ℚ))
    (dom : DomInfo) (time_window : ℚ) : Except PexpErr (ℚ × XQ) :=
  if ¬ dom.operational then Except.ok (0, XQ.fin 0)
  else
    match run_sources ctx dom hits (0, fun _ => 0) sources with
    | Except.error e => Except.error e
    | Except.ok (expAll, acc) =>
      let s := sum_log_at_hit_times ctx.logv dom.quantum_efficiency
        dom.noise_rate_per_ns acc hits
      if s.isInf then Except.error PexpErr.sumLogInf
      else
        Except.ok
          (expAll * dom.quantum_efficiency +
             dom.noise_rate_per_ns * time_window, s)

/-! ## Concrete instances used to evaluate the definitions -/

/-- A trivial bundle of track inversions (all zero). -/
def rho0 : RhoFuns :=
  ⟨fun _ => 0, fun _ => 0, fun _ => 0, fun _ => 0, fun _ => 0⟩

/-- A small concrete `pexp_5d` context: linear radial binning
(`r_power = 1`, so `x ** inv_r_power` is the identity), `r_max = 2`,
two radial and two polar bins, all table entries and normalizations 1. -/
def ctx0 : PexpCtx where
  compute_t_indep := true
  rsquared_max := 4
  r_max := 2
  n_r_bins := 2
  n_costheta_bins := 2
  table_dr_pwr := 1
  table_dcostheta := 1
  t_max := 10
  table_dt := 5
  table_dcosthetadir := 2
  table_dphidir := 1
  n_costhetadir_bins := 1
  n_deltaphidir_bins := 1
  last_costhetadir_bin_idx := 0
  last_deltaphidir_bin_idx := 0
  sqrtQ := fun q => q
  rpowInv := fun q => q
  acosQ := fun _ => 0
  logv := fun _ => 0
  table := fun _ _ _ _ _ => 1
  t_indep_table := fun _ _ _ _ => 1
  table_norm := fun _ _ => 1
  t_indep_table_norm := fun _ => 1

/-- A Cherenkov source one meter above the DOM `dom0` (so `dz/r = -1`). -/
def src0 : SrcRec where
  x := 0
  y := 0
  z := 1
  t := 0
  photons := 1
  kind := SRC_CKV_BETA1
  dir_costheta := 0
  dir_cosphi := 1
  dir_sinphi := 0

/-- An operational DOM at the origin with unit quantum efficiency and zero
noise. -/
def dom0 : DomInfo where
  operational := true
  x := 0
  y := 0
  z := 0
  quantum_efficiency := 1
  noise_rate_per_ns := 1 / 2

/-- The same DOM with a negative noise rate (an input on which the
aggregated log-likelihood becomes NaN). -/
def domN : DomInfo :=
  { dom0 with noise_rate_per_ns := -1 }

/-- One hit at time 5 with multiplicity 1. -/
def hits0 : List (XQ × ℚ) := [(XQ.fin 5, 1)]

/-- One hit at time 0 with multiplicity 1. -/
def hitsN : List (XQ × ℚ) := [(XQ.fin 0, 1)]

/-- A Cherenkov source one meter below the DOM `dom0` (so `dz/r = +1`). -/
def src1 : SrcRec :=
  { src0 with z := -1 }

/-! ## Helper lemmas -/

theorem pair_sorted_le (a b : ℚ) : (pair_sorted a b).1 ≤ (pair_sorted a b).2 := by
  unfold pair_sorted
  split
  · assumption
  · exact le_of_lt (not_le.mp (by assumption))

theorem pytrunc_of_nonneg {q : ℚ} (h : 0 ≤ q) : pytrunc q = ⌊q⌋ := by
  unfold pytrunc
  rw [if_neg (not_lt.mpr h)]

theorem pytrunc_nonneg {q : ℚ} (h : 0 ≤ q) : 0 ≤ pytrunc q := by
  rw [pytrunc_of_nonneg h]
  exact Int.floor_nonneg.mpr h

theorem pytrunc_lt {q : ℚ} {n : ℤ} (h0 : 0 ≤ q) (h : q < (n : ℚ)) :
    pytrunc q < n := by
  rw [pytrunc_of_nonneg h0]
  exact Int.floor_lt.mpr h

theorem pytrunc_le {q : ℚ} {n : ℤ} (h0 : 0 ≤ q) (h : q ≤ (n : ℚ)) :
    pytrunc q ≤ n := by
  rw [pytrunc_of_nonneg h0]
  calc ⌊q⌋ ≤ ⌊(n : ℚ)⌋ := Int.floor_le_floor h
    _ = n := Int.floor_intCast n

theorem pytrunc_intCast (n : ℤ) : pytrunc (n : ℚ) = n := by
  unfold pytrunc
  split
  · rw [← Int.cast_neg, Int.floor_intCast, neg_neg]
  · exact Int.floor_intCast n

theorem getD_mem_of_lt (l : List ℚ) (j : ℕ) (hj : j < l.length) :
    l.getD j 0 ∈ l := by
  induction l generalizing j with
  | nil => simp at hj
  | cons b t ih =>
    cases j with
    | zero => simp
    | succ j =>
      simp only [List.getD_cons_succ]
      exact List.mem_cons_of_mem _ (ih j (by simpa using hj))

theorem sorted_head_le_getD (a : ℚ) (l : List ℚ)
    (h : (a :: l).Pairwise (· < ·)) :
    ∀ j, j < (a :: l).length → a ≤ (a :: l).getD j 0 := by
  intro j hj
  cases j with
  | zero => simp
  | succ j =>
    simp only [List.getD_cons_succ]
    have hj2 : j < l.length := by simpa using hj
    have hmem : l.getD j 0 ∈ l := getD_mem_of_lt l j hj2
    exact le_of_lt ((List.pairwise_cons.mp h).1 _ hmem)

theorem get_bin_some_iff (val : ℚ) :
    ∀ (l : List ℚ), l.Pairwise (· < ·) → ∀ k : ℕ,
      (get_bin val l = some k ↔
        (k + 1 < l.length ∧ l.getD k 0 ≤ val ∧ val < l.getD (k + 1) 0)) := by
  intro l
  induction l with
  | nil =>
    intro _ k
    simp [get_bin]
  | cons e0 tail ih =>
    cases tail with
    | nil =>
      intro _ k
      constructor
      · intro h
        exact absurd h (by simp [get_bin])
      · rintro ⟨hlen, -, -⟩
        simp only [List.length_cons, List.length_nil] at hlen
        omega
    | cons e1 rest =>
      intro hp k
      have hp2 : (e1 :: rest).Pairwise (· < ·) := (List.pairwise_cons.mp hp).2
      by_cases hc : e0 ≤ val ∧ val < e1
      · cases k with
        | zero =>
          simp only [get_bin, if_pos hc, List.length_cons, List.getD_cons_zero,
            List.getD_cons_succ]
          constructor
          · intro _
            exact ⟨by omega, hc.1, hc.2⟩
          · intro _
            trivial
        | succ j =>
          simp only [get_bin, if_pos hc]
          constructor
          · intro h
            exact absurd h (by simp)
          · rintro ⟨hlen, hle, hlt⟩
            exfalso
            have hj : j < (e1 :: rest).length := by
              simp only [List.length_cons] at hlen ⊢
              omega
            have h2 : e1 ≤ (e1 :: rest).getD j 0 :=
              sorted_head_le_getD e1 rest hp2 j hj
            rw [List.getD_cons_succ] at hle
            exact absurd (le_trans h2 hle) (not_le.mpr hc.2)
      · cases k with
        | zero =>
          simp only [get_bin, if_neg hc]
          constructor
          · intro h
            rcases Option.map_eq_some'.mp h with ⟨a, -, ha⟩
            exact absurd ha (by simp)
          · rintro ⟨hlen, hle, hlt⟩
            rw [List.getD_cons_zero] at hle
            rw [List.getD_cons_succ, List.getD_cons_zero] at hlt
            exact absurd ⟨hle, hlt⟩ hc
        | succ j =>
          simp only [get_bin, if_neg hc]
          constructor
          · intro h
            rcases Option.map_eq_some'.mp h with ⟨a, hbase, ha⟩
            have haj : a = j := by omega
            subst haj
            obtain ⟨hl1, hl2, hl3⟩ := (ih hp2 a).mp hbase
            refine ⟨?_, ?_, ?_⟩
            · simp only [List.length_cons] at hl1 ⊢
              omega
            · rw [List.getD_cons_succ]
              exact hl2
            · rw [List.getD_cons_succ]
              exact hl3
          · rintro ⟨hlen, hle, hlt⟩
            have hbase : get_bin val (e1 :: rest) = some j := by
              apply (ih hp2 j).mpr
              refine ⟨?_, ?_, ?_⟩
              · simp only [List.length_cons] at hlen ⊢
                omega
              · rw [List.getD_cons_succ] at hle
                exact hle
              · rw [List.getD_cons_succ] at hlt
                exact hlt
            rw [hbase]
            rfl

theorem get_bin_none_iff (val : ℚ) :
    ∀ (l : List ℚ), l.Pairwise (· < ·) →
      (get_bin val l = none ↔
        (val < l.getD 0 0 ∨ l.getD (l.length - 1) 0 ≤ val)) := by
  intro l
  induction l with
  | nil =>
    intro _
    simpa [get_bin] using lt_or_ge val 0
  | cons e0 tail ih =>
    cases tail with
    | nil =>
      intro _
      simpa [get_bin] using lt_or_ge val e0
    | cons e1 rest =>
      intro hp
      have h01 : e0 < e1 := (List.pairwise_cons.mp hp).1 e1 (by simp)
      have hp2 : (e1 :: rest).Pairwise (· < ·) := (List.pairwise_cons.mp hp).2
      have hlast : e1 ≤ (e1 :: rest).getD ((e1 :: rest).length - 1) 0 :=
        sorted_head_le_getD e1 rest hp2 _ (by simp)
      have hidx : (e0 :: e1 :: rest).getD ((e0 :: e1 :: rest).length - 1) 0
          = (e1 :: rest).getD ((e1 :: rest).length - 1) 0 := by
        simp only [List.length_cons]
        rw [show rest.length + 1 + 1 - 1 = (rest.length + 1 - 1) + 1 by omega]
        rw [List.getD_cons_succ]
      by_cases hc : e0 ≤ val ∧ val < e1
      · simp only [get_bin, if_pos hc]
        constructor
        · intro h
          exact absurd h (by simp)
        · intro h
          exfalso
          rcases h with h | h
          · rw [List.getD_cons_zero] at h
            exact absurd hc.1 (not_le.mpr h)
          · rw [hidx] at h
            exact absurd (le_trans hlast h) (not_le.mpr hc.2)
      · simp only [get_bin, if_neg hc, Option.map_eq_none']
        rw [ih hp2]
        rw [hidx]
        simp only [List.getD_cons_zero]
        constructor
        · rintro (h | h)
          · left
            by_contra hcon
            push_neg at hcon
            exact hc ⟨hcon, h⟩
          · right
            exact h
        · rintro (h | h)
          · left
            exact lt_trans h h01
          · right
            exact h

/-! ## Claim theorems -/

/-- Claim C8: for every track and every time window `[t_low, t_high]` with
`t_low ≤ t_high`, `Track.extent` returns the overlap
`(max(t_low, t0), min(t_high, t0+dt))` of the track's active interval with
the window exactly when `t0+dt ≥ t_low` and `t_high ≥ t0`, and returns the
no-overlap value `none` otherwise. -/
theorem C8_spec (tr : Track) (t_low t_high : ℚ) (_hw : t_low ≤ t_high) :
    (tr.t0 + tr.dt ≥ t_low ∧ t_high ≥ tr.t0 →
      tr.extent t_low t_high = some (max t_low tr.t0, min t_high (tr.t0 + tr.dt))) ∧
    (¬ (tr.t0 + tr.dt ≥ t_low ∧ t_high ≥ tr.t0) →
      tr.extent t_low t_high = none) := by
  constructor
  · intro h
    simp [Track.extent, h]
  · intro h
    simp only [Track.extent, if_neg h]

/-- Witness for C8 at a concrete track and window. -/
theorem C8_witness :
    Track.extent ⟨0, 0, 0, 0, 10, 0, 1, 0, 1⟩ 2 5 = some (2, 5) := by
  have h := C8_spec ⟨0, 0, 0, 0, 10, 0, 1, 0, 1⟩ 2 5 (by norm_num)
  have h2 := h.1 (by norm_num)
  simpa using h2

/-- Claim C9: for every track, `Track.point t` fails the assertion exactly
when `t` is outside `[t0, t0+dt]`, and for every `t` within `[t0, t0+dt]`
it succeeds and returns `(x0, y0, z0)` displaced by the speed of light
times `(t - t0)` along the track direction. -/
theorem C9_spec (tr : Track) (t : ℚ) :
    (tr.point t = none ↔ ¬ (tr.t0 ≤ t ∧ t ≤ tr.t0 + tr.dt)) ∧
    (tr.t0 ≤ t → t ≤ tr.t0 + tr.dt →
      tr.point t =
        some (tr.x0 + SPEED_OF_LIGHT_M_PER_NS * (t - tr.t0) * tr.sintheta * tr.cosphi,
              tr.y0 + SPEED_OF_LIGHT_M_PER_NS * (t - tr.t0) * tr.sintheta * tr.sinphi,
              tr.z0 + SPEED_OF_LIGHT_M_PER_NS * (t - tr.t0) * tr.costheta)) := by
  constructor
  · by_cases hin : tr.t0 ≤ t ∧ t ≤ tr.t0 + tr.dt
    · simp [Track.point, hin]
    · simp [Track.point, hin]
  · intro h1 h2
    simp [Track.point, h1, h2]

/-- Witness for C9 at a concrete track and parameter. -/
theorem C9_witness :
    Track.point ⟨0, 1, 2, 3, 10, 0, 1, 0, 1⟩ 2 =
      some (1, 2, 3 + SPEED_OF_LIGHT_M_PER_NS * 2) := by
  have h := (C9_spec ⟨0, 1, 2, 3, 10, 0, 1, 0, 1⟩ 2).2 (by norm_num) (by norm_num)
  simpa using h

/-- Claim C6: in the discretized Cherenkov branch of `pexp_5d`, a photon
direction exactly at a binning upper edge maps to the last valid bin
(upper edge inclusive): for `pdir_costheta = +1` the costhetadir bin index
equals the last costhetadir bin, for `deltaphi = π` the deltaphidir bin
index equals the last deltaphidir bin (stated for any positive value `piq`
of the float constant π, with the bin width `piq / n` as computed by
`generate_pexp_5d_function`), and for every in-range direction both
computed indices are clamped to at most the last valid bin. -/
theorem C6_spec (ncd npd : ℕ) (piq : ℚ) (hncd : 1 ≤ ncd) (hnpd : 1 ≤ npd)
    (hpiq : 0 < piq) :
    costhetadir_bin_idx_of 1 (2 / (ncd : ℚ)) ((ncd : ℤ) - 1) = (ncd : ℤ) - 1 ∧
    deltaphidir_bin_idx_of piq (piq / (npd : ℚ)) ((npd : ℤ) - 1) = (npd : ℤ) - 1 ∧
    (∀ c : ℚ, -1 ≤ c → c ≤ 1 →
      costhetadir_bin_idx_of c (2 / (ncd : ℚ)) ((ncd : ℤ) - 1) ≤ (ncd : ℤ) - 1) ∧
    (∀ dp : ℚ, 0 ≤ dp → dp ≤ piq →
      deltaphidir_bin_idx_of dp (piq / (npd : ℚ)) ((npd : ℤ) - 1) ≤ (npd : ℤ) - 1) := by
  have hncdQ : (0 : ℚ) < (ncd : ℚ) := by exact_mod_cast hncd
  have hnpdQ : (0 : ℚ) < (npd : ℚ) := by exact_mod_cast hnpd
  refine ⟨?_, ?_, ?_, ?_⟩
  · unfold costhetadir_bin_idx_of
    have harg : ((1 : ℚ) + 1) / (2 / (ncd : ℚ)) = ((ncd : ℤ) : ℚ) := by
      push_cast
      field_simp
      ring
    rw [harg, pytrunc_intCast]
    rw [if_pos (by omega)]
  · unfold deltaphidir_bin_idx_of
    have harg : piq / (piq / (npd : ℚ)) = ((npd : ℤ) : ℚ) := by
      push_cast
      field_simp
    rw [harg, pytrunc_intCast]
    rw [if_pos (by omega)]
  · intro c _ _
    simp only [costhetadir_bin_idx_of]
    split
    · exact le_refl _
    · exact le_of_not_lt (by assumption)
  · intro dp _ _
    simp only [deltaphidir_bin_idx_of]
    split
    · exact le_refl _
    · exact le_of_not_lt (by assumption)

/-- Witness for C6 with two costhetadir bins and three deltaphidir bins. -/
theorem C6_witness :
    costhetadir_bin_idx_of 1 (2 / ((2 : ℕ) : ℚ)) (((2 : ℕ) : ℤ) - 1) = ((2 : ℕ) : ℤ) - 1 ∧
    deltaphidir_bin_idx_of 3 ((3 : ℚ) / ((3 : ℕ) : ℚ)) (((3 : ℕ) : ℤ) - 1) = ((3 : ℕ) : ℤ) - 1 := by
  have h := C6_spec 2 3 3 (by norm_num) (by norm_num) (by norm_num)
  exact ⟨h.1, h.2.1⟩

/-- Claim C4: in `pexp_5d`, for every source and every observed hit time,
if the source emission time is after the hit time (including the case
hit time = NaN), or the elapsed time `hit_time - source_t` is at least the
table's maximum time coverage `t_max`, then that source contributes zero
to that hit's entry of the per-hit expected-count accumulator. -/
theorem C4_spec (t_max table_dt source_t source_photons : ℚ)
    (norm_at surv_at : ℤ → ℚ) (hit_time : XQ)
    (hcond : ¬ xle source_t hit_time ∨
      ∃ h, hit_time = XQ.fin h ∧ t_max ≤ h - source_t) :
    src_hit_delta t_max table_dt source_t source_photons norm_at surv_at hit_time = 0 ∧
    ∀ (hits : List (XQ × ℚ)) (acc : ℕ → ℚ) (i : ℕ),
      (hits.getD i (XQ.nan, 0)).1 = hit_time →
      update_acc (src_hit_delta t_max table_dt source_t source_photons norm_at surv_at)
        hits acc i = acc i := by
  have hdelta :
      src_hit_delta t_max table_dt source_t source_photons norm_at surv_at hit_time = 0 := by
    cases hit_time with
    | nan => rfl
    | ninf => rfl
    | pinf => rfl
    | fin h =>
      rcases hcond with hlt | ⟨h2, heq, hge⟩
      · simp only [xle] at hlt
        simp [src_hit_delta, hlt]
      · have : h2 = h := by
          injection heq with h3
          exact h3.symm
        subst this
        by_cases hle : source_t ≤ h2
        · simp [src_hit_delta, hle, hge]
        · simp [src_hit_delta, hle]
  refine ⟨hdelta, ?_⟩
  intro hits acc i hgd
  unfold update_acc
  rw [hgd, hdelta]
  split <;> simp

/-- Witness for C4: a source emitted at time 5 contributes nothing to a
hit at time 3. -/
theorem C4_witness :
    src_hit_delta 10 1 5 1 (fun _ => 0) (fun _ => 0) (XQ.fin 3) = 0 := by
  have h := C4_spec 10 1 5 1 (fun _ => 0) (fun _ => 0) (XQ.fin 3)
    (Or.inl (by simp [xle]; norm_num))
  exact h.1

/-- Claim C2 (amended): for every three intervals in the same rho
coordinate, `A = max` of the lower bounds is at most `B = min` of the upper
bounds if and only if the three intervals have a common point; and when
`A ≤ B` *and none of the three intervals is a pair with both entries
negative* (such pairs are skipped by `inner_loop` as "no overlap"
sentinels), the photon count deposited into the corresponding 4D cell by
`inner_loop` is exactly `(B - A) * photons_per_meter`. -/
theorem C2_amended (r theta phi : ℚ × ℚ) (ppm : ℚ) (z : Idx4 → ℚ) (k : ℕ) :
    (triple_lo r theta phi ≤ triple_hi r theta phi ↔
      ∃ x, (r.1 ≤ x ∧ x ≤ r.2) ∧ (theta.1 ≤ x ∧ x ≤ theta.2) ∧
        (phi.1 ≤ x ∧ x ≤ phi.2)) ∧
    (¬ (r.1 < 0 ∧ r.2 < 0) → ¬ (theta.1 < 0 ∧ theta.2 < 0) →
      ¬ (phi.1 < 0 ∧ phi.2 < 0) →
      triple_lo r theta phi ≤ triple_hi r theta phi →
      inner_loop z k [phi] [theta] [] [r] [] ppm (k, 0, 0, 0) =
        z (k, 0, 0, 0) + (triple_hi r theta phi - triple_lo r theta phi) * ppm) := by
  constructor
  · unfold triple_lo triple_hi
    constructor
    · intro h
      refine ⟨max r.1 (max theta.1 phi.1), ⟨le_max_left _ _, ?_⟩,
        ⟨le_trans (le_max_left _ _) (le_max_right _ _), ?_⟩,
        ⟨le_trans (le_max_right _ _) (le_max_right _ _), ?_⟩⟩
      · exact le_trans h (min_le_left _ _)
      · exact le_trans h (le_trans (min_le_right _ _) (min_le_left _ _))
      · exact le_trans h (le_trans (min_le_right _ _) (min_le_right _ _))
    · rintro ⟨x, ⟨hr1, hr2⟩, ⟨ht1, ht2⟩, ⟨hf1, hf2⟩⟩
      exact le_trans (max_le hr1 (max_le ht1 hf1)) (le_min hr2 (le_min ht2 hf2))
  · intro h1 h2 h3 hAB
    simp only [inner_loop, phi_pass, theta_pass, r_pass, if_neg h1, if_neg h2,
      if_neg h3, if_pos hAB, bump]
    simp

/-- Witness for C2 at concrete non-sentinel intervals. -/
theorem C2_witness :
    inner_loop (fun _ => 0) 0 [((1 : ℚ)/2, 3)] [((0 : ℚ), 2)] [] [((0 : ℚ), 1)] []
      2 (0, 0, 0, 0) = 1 := by
  have h := (C2_amended (0, 1) (0, 2) (1/2, 3) 2 (fun _ => 0) 0).2
    (by norm_num) (by norm_num) (by norm_num)
    (by norm_num [triple_lo, triple_hi])
  rw [h]
  norm_num [triple_lo, triple_hi]

/-- Counterexample for C2 as frozen: for the interval triple
`((-2,-1), (-2,-1), (-2,-1))` we have `A = -2 ≤ B = -1` and the intervals
share a common point, yet `inner_loop` deposits nothing (the pairs are
taken for "no overlap" sentinels), not `(B - A) * photons_per_meter = 1`. -/
theorem C2_counterexample :
    triple_lo (-2, -1) (-2, -1) (-2, -1) ≤ triple_hi (-2, -1) (-2, -1) (-2, -1) ∧
    inner_loop (fun _ => 0) 0 [((-2 : ℚ), -1)] [((-2 : ℚ), -1)] []
      [((-2 : ℚ), -1)] [] 1 (0, 0, 0, 0) = 0 ∧
    (triple_hi (-2, -1) (-2, -1) (-2, -1) -
      triple_lo (-2, -1) (-2, -1) (-2, -1)) * 1 ≠ 0 := by
  refine ⟨by norm_num [triple_lo, triple_hi], ?_, by norm_num [triple_lo, triple_hi]⟩
  norm_num [inner_loop, phi_pass]

set_option maxHeartbeats 1000000 in
/-- Claim C3 (amended): for every call of each axis correlator
(`correlate_theta`, `correlate_phi`, `correlate_r`) with monotonic bin
edges, *provided the supplied `rho_extent` argument is ordered
(`rho_extent[0] ≤ rho_extent[1]`, as it is on every call site in
`compute_matrices`)*, the returned array has one interval per bin
(length = number of edges minus 1), and every returned interval either
satisfies `interval[0] ≤ interval[1]` or is the sentinel pair with both
entries negative denoting no overlap. -/
theorem C3_amended :
    (∀ (tk : RhoFuns) (edges : List ℚ) (t : Option (ℚ × ℚ)) (rho_extent : ℚ × ℚ),
      edges.Pairwise (· < ·) → rho_extent.1 ≤ rho_extent.2 →
      (correlate_theta tk edges t rho_extent).length = edges.length - 1 ∧
      ∀ p ∈ correlate_theta tk edges t rho_extent,
        p.1 ≤ p.2 ∨ (p.1 < 0 ∧ p.2 < 0)) ∧
    (∀ (tk : RhoFuns) (edges : List ℚ) (t : ℚ × ℚ) (rho_extent : ℚ × ℚ),
      edges.Pairwise (· < ·) → rho_extent.1 ≤ rho_extent.2 →
      (correlate_phi tk edges t rho_extent).length = edges.length - 1 ∧
      ∀ p ∈ correlate_phi tk edges t rho_extent,
        p.1 ≤ p.2 ∨ (p.1 < 0 ∧ p.2 < 0)) ∧
    (∀ (tk : RhoFuns) (edges : List ℚ) (t : ℚ × ℚ) (pos : Bool),
      edges.Pairwise (· < ·) →
      (correlate_r tk edges t pos).length = edges.length - 1 ∧
      ∀ p ∈ correlate_r tk edges t pos,
        p.1 ≤ p.2 ∨ (p.1 < 0 ∧ p.2 < 0)) := by
  refine ⟨?_, ?_, ?_⟩
  · intro tk edges t rho_extent _hpw hre
    refine ⟨by simp [correlate_theta], ?_⟩
    intro p hp
    rcases List.mem_map.mp hp with ⟨i, _, rfl⟩
    cases t with
    | none => norm_num
    | some tt =>
      dsimp only
      split_ifs <;>
        first
          | exact Or.inl hre
          | exact Or.inl (pair_sorted_le _ _)
          | norm_num
  · intro tk edges t rho_extent _hpw hre
    refine ⟨by simp [correlate_phi], ?_⟩
    intro p hp
    rcases List.mem_map.mp hp with ⟨i, _, rfl⟩
    dsimp only
    split_ifs <;>
      first
        | exact Or.inl hre
        | exact Or.inl (pair_sorted_le _ _)
        | norm_num
  · intro tk edges t pos _hpw
    refine ⟨by simp [correlate_r], ?_⟩
    intro p hp
    rcases List.mem_map.mp hp with ⟨i, _, rfl⟩
    dsimp only
    split_ifs <;>
      first
        | exact Or.inl (pair_sorted_le _ _)
        | norm_num

/-- Witness for C3: each correlator applied to a concrete monotone binning
with an ordered `rho_extent`. -/
theorem C3_witness :
    (correlate_theta rho0 [(0 : ℚ), 1] (some (0, 1)) (0, 1)).length = 1 ∧
    (correlate_phi rho0 [(0 : ℚ), 1] (0, 1) (0, 1)).length = 1 ∧
    (correlate_r rho0 [(0 : ℚ), 1] (0, 1) true).length = 1 := by
  have h1 := C3_amended.1 rho0 [0, 1] (some (0, 1)) (0, 1) (by norm_num) (by norm_num)
  have h2 := C3_amended.2.1 rho0 [0, 1] (0, 1) (0, 1) (by norm_num) (by norm_num)
  have h3 := C3_amended.2.2 rho0 [0, 1] (0, 1) true (by norm_num)
  exact ⟨by simpa using h1.1, by simpa using h2.1, by simpa using h3.1⟩

/-- Counterexample for C3 as frozen: a call of `correlate_theta` with the
monotone edges `[0, 1]`, a degenerate theta excursion, and the unsorted
`rho_extent = (5, 2)` returns the interval `(5, 2)`, which is neither
ordered nor a both-negative sentinel pair. -/
theorem C3_counterexample :
    List.Pairwise (· < ·) [(0 : ℚ), 1] ∧
    correlate_theta rho0 [(0 : ℚ), 1] (some (1/2, 1/2)) (5, 2) = [(5, 2)] ∧
    ¬ ((5 : ℚ) ≤ 2 ∨ ((5 : ℚ) < 0 ∧ (2 : ℚ) < 0)) := by
  refine ⟨by norm_num, ?_, by norm_num⟩
  have h7 : |(1 : ℚ)/2 - 1/2| < 1 / 10 ^ 7 := by norm_num
  simp only [correlate_theta, List.length_cons, List.length_nil]
  norm_num [List.range_succ, List.range_zero, h7]

/-- Claim C7: for every strictly monotonic edge sequence,
`Hypo.get_bin(val, bin_edges)` returns index `k` if and only if
`bin_edges[k] ≤ val < bin_edges[k+1]` (lower edge inclusive, upper edge
exclusive), and returns `none` (outside) exactly when `val` is below the
first edge or at or above the last edge; and when any of the cascade's
four bin lookups returns `none`, the cascade contribution is dropped
silently, with no photon count added. -/
theorem C7_spec (edges : List ℚ) (hpw : edges.Pairwise (· < ·)) (val : ℚ) :
    (∀ k : ℕ, get_bin val edges = some k ↔
      (k + 1 < edges.length ∧ edges.getD k 0 ≤ val ∧ val < edges.getD (k + 1) 0)) ∧
    (get_bin val edges = none ↔
      (val < edges.getD 0 0 ∨ edges.getD (edges.length - 1) 0 ≤ val)) ∧
    (∀ (counts corr_len : Idx4 → ℚ) (t_bin r_bin theta_bin phi_bin : Option ℕ)
        (cascade_photons : ℚ),
      (t_bin = none ∨ r_bin = none ∨ theta_bin = none ∨ phi_bin = none) →
      add_cascade counts corr_len t_bin r_bin theta_bin phi_bin cascade_photons =
        (counts, corr_len)) := by
  refine ⟨fun k => get_bin_some_iff val edges hpw k, get_bin_none_iff val edges hpw, ?_⟩
  intro counts corr_len t_bin r_bin theta_bin phi_bin cp hnone
  cases t_bin <;> cases r_bin <;> cases theta_bin <;> cases phi_bin <;>
    first
      | rfl
      | (rcases hnone with h | h | h | h <;> exact absurd h (by simp))

/-- Witness for C7 on the edges `[0, 1, 2]`: the value `3/2` falls in
bin 1, and a cascade with a failed time-bin lookup adds nothing. -/
theorem C7_witness :
    get_bin (3/2 : ℚ) [0, 1, 2] = some 1 ∧
    add_cascade (fun _ => 0) (fun _ => 0) none (some 0) (some 0) (some 0) 7 =
      (fun _ => (0 : ℚ), fun _ => (0 : ℚ)) := by
  have h := C7_spec [0, 1, 2] (by norm_num) (3/2)
  constructor
  · apply (h.1 1).mpr
    refine ⟨by norm_num, ?_, ?_⟩ <;>
      simp only [List.getD_cons_succ, List.getD_cons_zero] <;> norm_num
  · exact h.2.2 _ _ _ _ _ _ 7 (Or.inl rfl)

set_option maxHeartbeats 1000000 in
/-- Claim C10 (amended): in `pexp_5d`, for every source that passes the
radial rejection test (squared distance strictly less than the table's
maximum radius squared), the computed radial bin index lies in
`[0, n_r_bins-1]`; the computed polar-angle bin index lies in
`[0, n_costheta_bins]`, and it lies in `[0, n_costheta_bins-1]` exactly
when `dz ≠ -r`: for a source exactly on the axis with `dz/r = -1` the
polar index equals `n_costheta_bins`, one past the last valid bin, so the
subsequent unclamped table accesses are in-bounds only when `dz/r > -1`.
The hypotheses fix the oracles at this call: `sqrtQ` returns the exact
square root of `rsquared`, and `rpowInv` (the map `x ↦ x**(1/r_power)`) is
strictly monotone on nonnegatives with `rpowInv 0 = 0`; the binning
constants are related as `generate_pexp_5d_function` computes them. -/
theorem C10_amended (ctx : PexpCtx) (dom : DomInfo) (src : SrcRec) (r : ℚ)
    (hsq : ctx.sqrtQ (src_rsquared dom src) = r)
    (hr0 : 0 ≤ r) (hrr : r * r = src_rsquared dom src)
    (hrad : src_rsquared dom src < ctx.rsquared_max)
    (hmax : ctx.rsquared_max = ctx.r_max * ctx.r_max)
    (hrmax : 0 < ctx.r_max)
    (hdr : ctx.table_dr_pwr = ctx.rpowInv ctx.r_max / (ctx.n_r_bins : ℚ))
    (hnr : 1 ≤ ctx.n_r_bins)
    (hdc : ctx.table_dcostheta = 2 / (ctx.n_costheta_bins : ℚ))
    (hnc : 1 ≤ ctx.n_costheta_bins)
    (hmono : ∀ a b : ℚ, 0 ≤ a → a < b → ctx.rpowInv a < ctx.rpowInv b)
    (hrp0 : ctx.rpowInv 0 = 0) :
    (0 ≤ src_r_bin_idx ctx dom src ∧
      src_r_bin_idx ctx dom src ≤ (ctx.n_r_bins : ℤ) - 1) ∧
    (0 < r →
      (0 ≤ src_costheta_bin_idx ctx dom src ∧
        src_costheta_bin_idx ctx dom src ≤ (ctx.n_costheta_bins : ℤ)) ∧
      (dom.z - src.z ≠ -r →
        src_costheta_bin_idx ctx dom src ≤ (ctx.n_costheta_bins : ℤ) - 1) ∧
      (dom.z - src.z = -r →
        src_costheta_bin_idx ctx dom src = (ctx.n_costheta_bins : ℤ))) := by
  have hnrQ : (0 : ℚ) < (ctx.n_r_bins : ℚ) := by exact_mod_cast hnr
  have hncQ : (0 : ℚ) < (ctx.n_costheta_bins : ℚ) := by exact_mod_cast hnc
  have hrltmax : r < ctx.r_max := by nlinarith [hrr, hrad, hmax]
  have hpR : 0 < ctx.rpowInv ctx.r_max := by
    have h := hmono 0 ctx.r_max le_rfl hrmax
    rwa [hrp0] at h
  have hge : 0 ≤ ctx.rpowInv r := by
    rcases eq_or_lt_of_le hr0 with h | h
    · rw [← h, hrp0]
    · have h2 := hmono 0 r le_rfl h
      rw [hrp0] at h2
      exact le_of_lt h2
  have hlt : ctx.rpowInv r < ctx.rpowInv ctx.r_max := hmono r ctx.r_max hr0 hrltmax
  have hdrpos : 0 < ctx.table_dr_pwr := by
    rw [hdr]
    exact div_pos hpR hnrQ
  have hkey : (ctx.n_r_bins : ℚ) * ctx.table_dr_pwr = ctx.rpowInv ctx.r_max := by
    rw [hdr]
    field_simp
  constructor
  · have hbin : src_r_bin_idx ctx dom src =
        pytrunc (ctx.rpowInv r / ctx.table_dr_pwr) := by
      unfold src_r_bin_idx
      rw [hsq]
    have h0 : 0 ≤ ctx.rpowInv r / ctx.table_dr_pwr := div_nonneg hge hdrpos.le
    have hub : ctx.rpowInv r / ctx.table_dr_pwr < ((ctx.n_r_bins : ℤ) : ℚ) := by
      rw [div_lt_iff hdrpos]
      push_cast
      rw [hkey]
      exact hlt
    rw [hbin]
    refine ⟨pytrunc_nonneg h0, ?_⟩
    have := pytrunc_lt h0 hub
    omega
  · intro hrpos
    have hcost : src_costheta_bin_idx ctx dom src =
        pytrunc ((1 - (dom.z - src.z) / r) / ctx.table_dcostheta) := by
      unfold src_costheta_bin_idx
      rw [hsq]
    have hrs : src_rsquared dom src =
        (dom.x - src.x) * (dom.x - src.x) + (dom.y - src.y) * (dom.y - src.y) +
          (dom.z - src.z) * (dom.z - src.z) := rfl
    have hdzsq : (dom.z - src.z) * (dom.z - src.z) ≤ r * r := by
      rw [hrr, hrs]
      nlinarith [mul_self_nonneg (dom.x - src.x), mul_self_nonneg (dom.y - src.y)]
    have hdzle : dom.z - src.z ≤ r := by nlinarith
    have hdzge : -r ≤ dom.z - src.z := by nlinarith
    have hdiv_le : (dom.z - src.z) / r ≤ 1 := by
      rw [div_le_one hrpos]
      exact hdzle
    have hdiv_ge : (-1 : ℚ) ≤ (dom.z - src.z) / r := by
      rw [le_div_iff hrpos]
      linarith
    have hdcpos : 0 < ctx.table_dcostheta := by
      rw [hdc]
      exact div_pos two_pos hncQ
    have hkey2 : (ctx.n_costheta_bins : ℚ) * ctx.table_dcostheta = 2 := by
      rw [hdc]
      field_simp
    have hx0 : 0 ≤ (1 - (dom.z - src.z) / r) / ctx.table_dcostheta :=
      div_nonneg (by linarith) hdcpos.le
    have hxle : (1 - (dom.z - src.z) / r) / ctx.table_dcostheta ≤
        ((ctx.n_costheta_bins : ℤ) : ℚ) := by
      rw [div_le_iff hdcpos]
      push_cast
      rw [hkey2]
      linarith
    rw [hcost]
    refine ⟨⟨pytrunc_nonneg hx0, pytrunc_le hx0 hxle⟩, ?_, ?_⟩
    · intro hne
      have hlt2 : -r < dom.z - src.z := lt_of_le_of_ne hdzge (fun h => hne h.symm)
      have hdiv_gt : (-1 : ℚ) < (dom.z - src.z) / r := by
        rw [lt_div_iff hrpos]
        linarith
      have hxlt : (1 - (dom.z - src.z) / r) / ctx.table_dcostheta <
          ((ctx.n_costheta_bins : ℤ) : ℚ) := by
        rw [div_lt_iff hdcpos]
        push_cast
        rw [hkey2]
        linarith
      have := pytrunc_lt hx0 hxlt
      omega
    · intro heq
      have hm1 : (dom.z - src.z) / r = -1 := by
        rw [heq, neg_div, div_self (ne_of_gt hrpos)]
      rw [hm1]
      have hne : (ctx.n_costheta_bins : ℚ) ≠ 0 := ne_of_gt hncQ
      have harg : (1 - (-1 : ℚ)) / ctx.table_dcostheta =
          ((ctx.n_costheta_bins : ℤ) : ℚ) := by
        rw [hdc]
        push_cast
        rw [div_div_eq_mul_div, mul_comm, mul_div_assoc]
        norm_num
      rw [harg, pytrunc_intCast]

/-- Witness for C10 at the source `src1` one meter below `dom0`
(`dz/r = +1`): both unclamped indices are in range. -/
theorem C10_witness :
    (0 ≤ src_r_bin_idx ctx0 dom0 src1 ∧
      src_r_bin_idx ctx0 dom0 src1 ≤ (ctx0.n_r_bins : ℤ) - 1) ∧
    (0 ≤ src_costheta_bin_idx ctx0 dom0 src1 ∧
      src_costheta_bin_idx ctx0 dom0 src1 ≤ (ctx0.n_costheta_bins : ℤ) - 1) := by
  have h := C10_amended ctx0 dom0 src1 1
    (by norm_num [src_rsquared, ctx0, dom0, src1, src0])
    (by norm_num)
    (by norm_num [src_rsquared, ctx0, dom0, src1, src0])
    (by norm_num [src_rsquared, ctx0, dom0, src1, src0])
    (by norm_num [ctx0])
    (by norm_num [ctx0])
    (by norm_num [ctx0])
    (by norm_num [ctx0])
    (by norm_num [ctx0])
    (by norm_num [ctx0])
    (by intro a b _ hab; exact hab)
    (by norm_num [ctx0])
  refine ⟨h.1, (h.2 (by norm_num)).1.1, ?_⟩
  exact (h.2 (by norm_num)).2.1 (by norm_num [dom0, src1, src0])

/-- Counterexample for C10 as frozen: the source `src0` exactly one meter
above the DOM `dom0` passes the radial test (`rsquared = 1 < 4`), the
binning constants are exactly as `generate_pexp_5d_function` computes them
for a linear binning with two polar bins, yet the computed polar-angle bin
index is `2 = n_costheta_bins`, outside `[0, n_costheta_bins - 1]`. -/
theorem C10_counterexample :
    src_rsquared dom0 src0 < ctx0.rsquared_max ∧
    ctx0.rsquared_max = ctx0.r_max * ctx0.r_max ∧
    ctx0.table_dr_pwr = ctx0.rpowInv ctx0.r_max / (ctx0.n_r_bins : ℚ) ∧
    ctx0.table_dcostheta = 2 / (ctx0.n_costheta_bins : ℚ) ∧
    ¬ (src_costheta_bin_idx ctx0 dom0 src0 ≤ (ctx0.n_costheta_bins : ℤ) - 1) := by
  have hval : src_costheta_bin_idx ctx0 dom0 src0 = 2 := by
    show pytrunc ((1 - (0 - 1) / (ctx0.sqrtQ (src_rsquared dom0 src0))) /
      ctx0.table_dcostheta) = 2
    norm_num [src_rsquared, ctx0, dom0, src0]
    show pytrunc 2 = 2
    have : ((2 : ℤ) : ℚ) = (2 : ℚ) := by norm_num
    rw [← this, pytrunc_intCast]
  refine ⟨?_, ?_, ?_, ?_, ?_⟩
  · norm_num [src_rsquared, ctx0, dom0, src0]
  · norm_num [ctx0]
  · norm_num [ctx0]
  · norm_num [ctx0]
  · rw [hval]
    norm_num [ctx0]

theorem run_sources_ok_norm_pos (ctx : PexpCtx) (dom : DomInfo)
    (hits : List (XQ × ℚ)) :
    ∀ (l : List SrcRec) (st st2 : ℚ × (ℕ → ℚ)),
      run_sources ctx dom hits st l = Except.ok st2 →
      ctx.compute_t_indep = true →
      ∀ src ∈ l, src_rsquared dom src < ctx.rsquared_max →
        0 < ctx.t_indep_table_norm (src_r_bin_idx ctx dom src) := by
  intro l
  induction l with
  | nil =>
    intro st st2 _ _ src hmem
    exact absurd hmem (List.not_mem_nil src)
  | cons a rest ih =>
    intro st st2 hrun hcti src hmem hrad
    rcases List.mem_cons.mp hmem with rfl | hmem2
    · unfold run_sources at hrun
      cases hps : process_source ctx dom hits st src with
      | error e =>
        rw [hps] at hrun
        exact absurd hrun (by simp)
      | ok st1 =>
        clear hrun
        unfold process_source at hps
        rw [if_neg (not_le.mpr hrad)] at hps
        cases hsv : source_surv ctx dom src with
        | error e =>
          rw [hsv] at hps
          exact absurd hps (by simp)
        | ok pr =>
          rw [hsv] at hps
          obtain ⟨tis, surv⟩ := pr
          rw [hcti] at hps
          simp only [if_true] at hps
          by_cases hn : 0 < ctx.t_indep_table_norm (src_r_bin_idx ctx dom src)
          · exact hn
          · rw [if_pos hn] at hps
            exact absurd hps (by simp)
    · unfold run_sources at hrun
      cases hps : process_source ctx dom hits st a with
      | error e =>
        rw [hps] at hrun
        exact absurd hrun (by simp)
      | ok st1 =>
        rw [hps] at hrun
        exact ih st1 st2 hrun hcti src hmem2 hrad

/-- Claim C5 (amended): `pexp_5d` surfaces the normalization violation as
a hard failure: for every evaluation with `compute_t_indep_exp` enabled,
if any processed source's entry `t_indep_table_norm[r_bin_idx]` is not
strictly positive, the evaluation raises (equivalently: a returning
evaluation has a strictly positive normalization at every source that
passed the radial test).  For the aggregated log-likelihood, the
evaluation raises exactly when the sum is *infinite* (`np.isinf`); a NaN
(also non-finite) aggregated sum is *returned without raising*, because
`np.isinf(NaN)` is false. -/
theorem C5_amended (ctx : PexpCtx) (sources : List SrcRec)
    (hits : List (XQ × ℚ)) (dom : DomInfo) (tw : ℚ) (res : ℚ × XQ)
    (hok : pexp_5d ctx sources hits dom tw = Except.ok res) :
    (ctx.compute_t_indep = true → dom.operational = true →
      ∀ src ∈ sources, src_rsquared dom src < ctx.rsquared_max →
        0 < ctx.t_indep_table_norm (src_r_bin_idx ctx dom src)) ∧
    res.2.isInf = false := by
  unfold pexp_5d at hok
  by_cases hop : dom.operational = true
  · rw [if_neg (by simp [hop])] at hok
    cases hrun : run_sources ctx dom hits (0, fun _ => 0) sources with
    | error e =>
      rw [hrun] at hok
      exact absurd hok (by simp)
    | ok st =>
      rw [hrun] at hok
      obtain ⟨expAll, acc⟩ := st
      dsimp only at hok
      by_cases hinf : (sum_log_at_hit_times ctx.logv dom.quantum_efficiency
          dom.noise_rate_per_ns acc hits).isInf = true
      · rw [if_pos hinf] at hok
        exact absurd hok (by simp)
      · rw [if_neg hinf] at hok
        have h2 := Except.ok.inj hok
        constructor
        · intro hcti _ src hmem hrad
          exact run_sources_ok_norm_pos ctx dom hits sources _ _ hrun hcti src hmem hrad
        · rw [← h2]
          simpa using hinf
  · rw [if_pos (by simp [hop])] at hok
    have h2 := Except.ok.inj hok
    constructor
    · intro _ hopT
      exact absurd hopT hop
    · rw [← h2]
      rfl

/-- Witness for C5: a returning evaluation with one processed source has a
positive time-independent normalization at that source and a non-infinite
aggregated sum. -/
theorem C5_witness :
    0 < ctx0.t_indep_table_norm (src_r_bin_idx ctx0 dom0 src0) ∧
    (XQ.fin 0).isInf = false := by
  have hok : pexp_5d ctx0 [src0] hits0 dom0 0 = Except.ok (1, XQ.fin 0) := by
    norm_num [pexp_5d, run_sources, process_source, source_surv, src_rsquared,
      src_r_bin_idx, src_costheta_bin_idx, costhetadir_bin_idx_of,
      deltaphidir_bin_idx_of, update_acc, src_hit_delta, sum_log_at_hit_times,
      mlog, XQ.add, XQ.smul, XQ.isInf, tbl_mean, MACHINE_EPS, pytrunc,
      SRC_OMNI, SRC_CKV_BETA1, ctx0, dom0, src0, hits0,
      List.range_succ, List.range_zero]
  have h := C5_amended ctx0 [src0] hits0 dom0 0 (1, XQ.fin 0) hok
  refine ⟨?_, h.2⟩
  exact h.1 rfl rfl src0 (List.mem_singleton.mpr rfl)
    (by norm_num [src_rsquared, ctx0, dom0, src0])

/-- Counterexample for C5 as frozen: with no sources, one hit of
multiplicity 1, and a (nowhere validated) negative noise rate, the
aggregated log-likelihood is `1 * log(-1) = NaN` — non-finite — yet
`pexp_5d` returns it instead of raising, because `np.isinf(NaN)` is
false. -/
theorem C5_counterexample :
    pexp_5d ctx0 [] hitsN domN 0 = Except.ok (0, XQ.nan) ∧
    XQ.nan.isInf = false ∧
    XQ.nan.isFinite = false := by
  refine ⟨?_, rfl, rfl⟩
  norm_num [pexp_5d, run_sources, sum_log_at_hit_times, mlog, XQ.add, XQ.smul,
    XQ.isInf, ctx0, dom0, domN, hitsN, List.range_succ, List.range_zero]
